import Mathlib

/-!
Shallow embedding of the `prefix_writer` crate (`src/src/lib.rs`).

The crate provides `PrefixWriter<W: Write>`, an adapter around a byte sink
that prepends a configured text to every non-empty completed line.  We embed
the adapter's logical state (the configured text `pfx` and the optional
`remainder` of an incomplete line) as a Lean structure, and the wrapped
sink as an explicit `SinkState` threaded through the operations.

The sink is modelled by the list of bytes it has received (represented as
the decoded characters, since everything the adapter forwards is valid
UTF-8 produced from Rust `String`s) together with a `plan`: the outcome the
sink will give to each successive operation (`none` = success, `some e` =
fail with error `e`).  An empty plan means every operation succeeds.  This
lets us quantify over sinks that fail at arbitrary points, as the Rust
`W: Write` parameter allows.
-/

/-- Replacement character U+FFFD used by `String::from_utf8_lossy`. -/
def replChar : Char := Char.ofNat 0xFFFD

/-- Is `b` a UTF-8 continuation byte (`0x80..=0xBF`)? -/
def isCont (b : Nat) : Bool := 0x80 ≤ b && b ≤ 0xBF

/-- Valid second byte for a three-byte sequence led by `b1`
(`0xE0 → 0xA0..=0xBF`, `0xED → 0x80..=0x9F`, otherwise a continuation). -/
def isValid3Second (b1 b2 : Nat) : Bool :=
  if b1 == 0xE0 then 0xA0 ≤ b2 && b2 ≤ 0xBF
  else if b1 == 0xED then 0x80 ≤ b2 && b2 ≤ 0x9F
  else isCont b2

/-- Valid second byte for a four-byte sequence led by `b1`
(`0xF0 → 0x90..=0xBF`, `0xF4 → 0x80..=0x8F`, otherwise a continuation). -/
def isValid4Second (b1 b2 : Nat) : Bool :=
  if b1 == 0xF0 then 0x90 ≤ b2 && b2 ≤ 0xBF
  else if b1 == 0xF4 then 0x80 ≤ b2 && b2 ≤ 0x8F
  else isCont b2

/-- The scalar value of a two-byte UTF-8 sequence. -/
def scalar2 (b1 b2 : Nat) : Char := Char.ofNat ((b1 - 0xC0) * 0x40 + (b2 - 0x80))

/-- The scalar value of a three-byte UTF-8 sequence. -/
def scalar3 (b1 b2 b3 : Nat) : Char :=
  Char.ofNat ((b1 - 0xE0) * 0x1000 + (b2 - 0x80) * 0x40 + (b3 - 0x80))

/-- The scalar value of a four-byte UTF-8 sequence. -/
def scalar4 (b1 b2 b3 b4 : Nat) : Char :=
  Char.ofNat ((b1 - 0xF0) * 0x40000 + (b2 - 0x80) * 0x1000 + (b3 - 0x80) * 0x40 + (b4 - 0x80))

/-- Embedding of `String::from_utf8_lossy`: total UTF-8 decoding where each
maximal invalid subpart becomes one U+FFFD.  Every byte list decodes to some
character list; decoding never fails.  The cases are laid out by how many
bytes remain, so that a truncated multi-byte sequence at the end of the
input yields a single replacement character. -/
def utf8Lossy : List Nat → List Char
  | [] => []
  | [b1] =>
    if b1 < 0x80 then [Char.ofNat b1] else [replChar]
  | [b1, b2] =>
    if b1 < 0x80 then Char.ofNat b1 :: utf8Lossy [b2]
    else if b1 < 0xC2 then replChar :: utf8Lossy [b2]
    else if b1 ≤ 0xDF then
      if isCont b2 then [scalar2 b1 b2]
      else replChar :: utf8Lossy [b2]
    else if b1 ≤ 0xEF then
      if isValid3Second b1 b2 then [replChar]
      else replChar :: utf8Lossy [b2]
    else if b1 ≤ 0xF4 then
      if isValid4Second b1 b2 then [replChar]
      else replChar :: utf8Lossy [b2]
    else replChar :: utf8Lossy [b2]
  | [b1, b2, b3] =>
    if b1 < 0x80 then Char.ofNat b1 :: utf8Lossy [b2, b3]
    else if b1 < 0xC2 then replChar :: utf8Lossy [b2, b3]
    else if b1 ≤ 0xDF then
      if isCont b2 then scalar2 b1 b2 :: utf8Lossy [b3]
      else replChar :: utf8Lossy [b2, b3]
    else if b1 ≤ 0xEF then
      if isValid3Second b1 b2 then
        if isCont b3 then [scalar3 b1 b2 b3]
        else replChar :: utf8Lossy [b3]
      else replChar :: utf8Lossy [b2, b3]
    else if b1 ≤ 0xF4 then
      if isValid4Second b1 b2 then
        if isCont b3 then [replChar]
        else replChar :: utf8Lossy [b3]
      else replChar :: utf8Lossy [b2, b3]
    else replChar :: utf8Lossy [b2, b3]
  | b1 :: b2 :: b3 :: b4 :: t4 =>
    if b1 < 0x80 then Char.ofNat b1 :: utf8Lossy (b2 :: b3 :: b4 :: t4)
    else if b1 < 0xC2 then replChar :: utf8Lossy (b2 :: b3 :: b4 :: t4)
    else if b1 ≤ 0xDF then
      if isCont b2 then scalar2 b1 b2 :: utf8Lossy (b3 :: b4 :: t4)
      else replChar :: utf8Lossy (b2 :: b3 :: b4 :: t4)
    else if b1 ≤ 0xEF then
      if isValid3Second b1 b2 then
        if isCont b3 then scalar3 b1 b2 b3 :: utf8Lossy (b4 :: t4)
        else replChar :: utf8Lossy (b3 :: b4 :: t4)
      else replChar :: utf8Lossy (b2 :: b3 :: b4 :: t4)
    else if b1 ≤ 0xF4 then
      if isValid4Second b1 b2 then
        if isCont b3 then
          if isCont b4 then scalar4 b1 b2 b3 b4 :: utf8Lossy t4
          else replChar :: utf8Lossy (b4 :: t4)
        else replChar :: utf8Lossy (b3 :: b4 :: t4)
      else replChar :: utf8Lossy (b2 :: b3 :: b4 :: t4)
    else replChar :: utf8Lossy (b2 :: b3 :: b4 :: t4)

/-- UTF-8 bytes of an ASCII character list (used to build concrete inputs). -/
def bytesOfAscii (s : List Char) : List Nat := s.map Char.toNat

/-- Embedding of `str::split_inclusive('\n')`: cut after every newline
character, keeping it at the end of its group; the empty string yields no
groups. -/
def splitInclusiveNL : List Char → List (List Char)
  | [] => []
  | c :: rest =>
    if c = '\n' then [c] :: splitInclusiveNL rest
    else
      match splitInclusiveNL rest with
      | [] => [[c]]
      | g :: gs => (c :: g) :: gs

/-- Embedding of the map applied by `str::lines` to each inclusive group:
strip one trailing newline, and if one was stripped also strip one trailing
carriage return. -/
def linesMap (l : List Char) : List Char :=
  match l.getLast? with
  | some c =>
    if c = '\n' then
      match l.dropLast.getLast? with
      | some c2 => if c2 = '\r' then l.dropLast.dropLast else l.dropLast
      | none => l.dropLast
    else l
  | none => l

/-- Embedding of `str::lines`, used by `PrefixWriter::write` on the
effective input text. -/
def strLines (s : List Char) : List (List Char) :=
  (splitInclusiveNL s).map linesMap

/-- Logical state of `PrefixWriter` (`src/src/lib.rs` lines 17-22): the
configured text inserted before non-empty lines (field `prefix` in the
source) and the optional buffered incomplete line (field `remainder`).
The wrapped writer `W` is modelled separately as a `SinkState` threaded
through the operations. -/
structure PrefixWriter where
  pfx : List Char
  remainder : Option (List Char)
deriving DecidableEq

/-- The wrapped sink: the data it has received so far and the planned
outcome of each successive operation (`none` = succeed, `some e` = fail
with error `e`); an exhausted (empty) plan means success forever. -/
structure SinkState (ε : Type) where
  received : List Char
  plan : List (Option ε)

/-- One `write_all` on the sink: on success the data is appended; on
failure nothing is appended and the error is returned. -/
def sinkWriteAll {ε : Type} (data : List Char) (s : SinkState ε) :
    Except ε Unit × SinkState ε :=
  match s.plan with
  | [] => (Except.ok (), ⟨s.received ++ data, []⟩)
  | none :: rest => (Except.ok (), ⟨s.received ++ data, rest⟩)
  | some e :: rest => (Except.error e, ⟨s.received, rest⟩)

/-- `flush` on the sink: never changes the received data. -/
def sinkFlush {ε : Type} (s : SinkState ε) : Except ε Unit × SinkState ε :=
  match s.plan with
  | [] => (Except.ok (), s)
  | none :: rest => (Except.ok (), ⟨s.received, rest⟩)
  | some e :: rest => (Except.error e, ⟨s.received, rest⟩)

/-- A sequence of `write_all` calls chained with `?`-propagation: stop at
the first failing call. -/
def sinkWriteMany {ε : Type} : List (List Char) → SinkState ε →
    Except ε Unit × SinkState ε
  | [], s => (Except.ok (), s)
  | d :: ds, s =>
    match sinkWriteAll d s with
    | (Except.error e, s1) => (Except.error e, s1)
    | (Except.ok _, s1) => sinkWriteMany ds s1

/-- The chunks one loop iteration of `PrefixWriter::write` forwards for a
completed line (`src/src/lib.rs` lines 42-47): the configured text when
the line is non-empty, then the line, then a newline byte. -/
def lineChunks (pfx line : List Char) : List (List Char) :=
  (if line.isEmpty then [] else [pfx]) ++ [line, ['\n']]

/-- The `while let` loop of `PrefixWriter::write` (`src/src/lib.rs` lines
36-48): iterate the produced lines; when the current line is the last and
the effective input did not end with a newline, store it as the remainder
and stop; otherwise forward its chunks (propagating sink errors, which
leave the remainder as it was). -/
def writeLoop {ε : Type} (pfx : List Char) (endsNL : Bool) :
    List (List Char) → Option (List Char) → SinkState ε →
    Except ε Unit × Option (List Char) × SinkState ε
  | [], rem, s => (Except.ok (), rem, s)
  | line :: rest, rem, s =>
    if rest.isEmpty && !endsNL then (Except.ok (), some line, s)
    else
      match sinkWriteMany (lineChunks pfx line) s with
      | (Except.error e, s1) => (Except.error e, rem, s1)
      | (Except.ok _, s1) => writeLoop pfx endsNL rest rem s1

/-- Embedding of `str::ends_with('\\n')` on the effective input
(`src/src/lib.rs` line 32). -/
def endsWithNL (s : List Char) : Bool := s.getLast? = some '\n'

/-- The effective input text of a `write` call (`src/src/lib.rs` lines
26-30): the pending remainder, if any, concatenated with the lossily
decoded bytes of this call. -/
def effInput (w : PrefixWriter) (buf : List Nat) : List Char :=
  match w.remainder with
  | some r => r ++ utf8Lossy buf
  | none => utf8Lossy buf

/-- Embedding of `PrefixWriter::write` (`src/src/lib.rs` lines 25-51).
Returns the call's result together with the adapter state and sink state
after the call.  On success the result is the full input length. -/
def PrefixWriter.write {ε : Type} (w : PrefixWriter) (buf : List Nat)
    (s : SinkState ε) : Except ε Nat × PrefixWriter × SinkState ε :=
  let input := effInput w buf
  let endsNL : Bool := endsWithNL input
  match writeLoop w.pfx endsNL (strLines input) w.remainder s with
  | (Except.ok _, rem, s1) => (Except.ok buf.length, ⟨w.pfx, rem⟩, s1)
  | (Except.error e, rem, s1) => (Except.error e, ⟨w.pfx, rem⟩, s1)

/-- Embedding of `PrefixWriter::flush` (`src/src/lib.rs` lines 53-62): if a
non-empty remainder is pending, forward the configured text and the
remainder, then forward a flush to the sink.  The adapter state is
returned unchanged in every branch, exactly as in the source (which never
assigns to `self`). -/
def PrefixWriter.flush {ε : Type} (w : PrefixWriter) (s : SinkState ε) :
    Except ε Unit × PrefixWriter × SinkState ε :=
  match w.remainder with
  | some r =>
    if r.isEmpty then
      match sinkFlush s with
      | (res, s1) => (res, w, s1)
    else
      match sinkWriteMany [w.pfx, r] s with
      | (Except.error e, s1) => (Except.error e, w, s1)
      | (Except.ok _, s1) =>
        match sinkFlush s1 with
        | (res, s2) => (res, w, s2)
  | none =>
    match sinkFlush s with
    | (res, s1) => (res, w, s1)

/-- Embedding of `PrefixWriter::new` (`src/src/lib.rs` lines 70-77): no
pending remainder.  The writer argument is the separately threaded
`SinkState`. -/
def PrefixWriter.new (pfx : List Char) : PrefixWriter := ⟨pfx, none⟩

/-- Embedding of `PrefixWriter::with_prefix` (`src/src/lib.rs` lines
80-82): replace the configured text, keep the rest. -/
def PrefixWriter.withPfx (w : PrefixWriter) (pfx : List Char) : PrefixWriter :=
  ⟨pfx, w.remainder⟩

/-- Embedding of `PrefixWriter::with_writer` (`src/src/lib.rs` lines
85-87): replace the wrapped writer, keep the logical fields.  Since the
sink is threaded separately, the logical state is unchanged. -/
def PrefixWriter.withWriter (w : PrefixWriter) : PrefixWriter :=
  ⟨w.pfx, w.remainder⟩

/-! ### Declarative descriptions of the operations, used in the theorems -/

/-- The lines the `write` loop completes (forwards to the sink): all of
them when the effective input ends with a newline, all but the last
otherwise. -/
def completedLines (endsNL : Bool) (lns : List (List Char)) : List (List Char) :=
  if endsNL then lns else lns.dropLast

/-- The remainder field after the `write` loop: unchanged when the
effective input ends with a newline or produced no lines, otherwise the
last produced line. -/
def loopRemainder (endsNL : Bool) (lns : List (List Char))
    (rem : Option (List Char)) : Option (List Char) :=
  if endsNL then rem
  else
    match lns.getLast? with
    | none => rem
    | some l => some l

/-- The bytes a fully successful `write` call forwards for a list of
completed lines: for each line, the configured text when the line is
non-empty, the line itself, and a newline. -/
def emitLines (pfx : List Char) : List (List Char) → List Char
  | [] => []
  | l :: ls => (lineChunks pfx l).flatten ++ emitLines pfx ls

/-- The bytes a fully successful `flush` call forwards: the configured
text followed by the remainder, when a non-empty remainder is pending;
nothing otherwise. -/
def flushEmit (w : PrefixWriter) : List Char :=
  match w.remainder with
  | some r => if r.isEmpty then [] else w.pfx ++ r
  | none => []

/-! ### Sink-level lemmas -/

theorem sinkWriteAll_nilPlan {ε : Type} (data recv : List Char) :
    sinkWriteAll (ε := ε) data ⟨recv, []⟩ = (Except.ok (), ⟨recv ++ data, []⟩) := rfl

theorem sinkWriteMany_nilPlan {ε : Type} (ds : List (List Char)) (recv : List Char) :
    sinkWriteMany (ε := ε) ds ⟨recv, []⟩ = (Except.ok (), ⟨recv ++ ds.flatten, []⟩) := by
  induction ds generalizing recv with
  | nil => simp [sinkWriteMany]
  | cons d ds ih => simp [sinkWriteMany, sinkWriteAll, ih]

theorem sinkWriteAll_error_mem {ε : Type} {data : List Char} {s s' : SinkState ε}
    {e : ε} (h : sinkWriteAll data s = (Except.error e, s')) : some e ∈ s.plan := by
  rcases s with ⟨recv, plan⟩
  match plan with
  | [] => simp [sinkWriteAll] at h
  | none :: rest => simp [sinkWriteAll] at h
  | some e' :: rest =>
    simp [sinkWriteAll] at h
    simp [h.1]

theorem sinkWriteAll_plan_mono {ε : Type} {data : List Char} {s : SinkState ε}
    {x : Option ε} (h : x ∈ (sinkWriteAll data s).2.plan) : x ∈ s.plan := by
  rcases s with ⟨recv, plan⟩
  match plan with
  | [] => simp [sinkWriteAll] at h
  | none :: rest => simp [sinkWriteAll] at h ⊢; exact Or.inr h
  | some e' :: rest => simp [sinkWriteAll] at h ⊢; exact Or.inr h

theorem sinkWriteMany_error_mem {ε : Type} {ds : List (List Char)}
    {s s' : SinkState ε} {e : ε}
    (h : sinkWriteMany ds s = (Except.error e, s')) : some e ∈ s.plan := by
  induction ds generalizing s with
  | nil => simp [sinkWriteMany] at h
  | cons d ds ih =>
    rw [sinkWriteMany] at h
    rcases hw : sinkWriteAll d s with ⟨res, s1⟩
    rw [hw] at h
    match res with
    | Except.error e' =>
      simp at h
      exact h.1 ▸ sinkWriteAll_error_mem hw
    | Except.ok _ =>
      simp at h
      have := ih h
      have : some e ∈ (sinkWriteAll d s).2.plan := by rw [hw]; exact this
      exact sinkWriteAll_plan_mono this

theorem sinkWriteMany_plan_mono {ε : Type} {ds : List (List Char)}
    {s : SinkState ε} {x : Option ε}
    (h : x ∈ (sinkWriteMany ds s).2.plan) : x ∈ s.plan := by
  induction ds generalizing s with
  | nil => simp [sinkWriteMany] at h; exact h
  | cons d ds ih =>
    rw [sinkWriteMany] at h
    rcases hw : sinkWriteAll d s with ⟨res, s1⟩
    rw [hw] at h
    match res with
    | Except.error e' =>
      simp at h
      have : x ∈ (sinkWriteAll d s).2.plan := by rw [hw]; exact h
      exact sinkWriteAll_plan_mono this
    | Except.ok _ =>
      simp at h
      have := ih h
      have : x ∈ (sinkWriteAll d s).2.plan := by rw [hw]; exact this
      exact sinkWriteAll_plan_mono this

theorem sinkWriteAll_received {ε : Type} (data : List Char) (s : SinkState ε) :
    (sinkWriteAll data s).2.received = s.received ++ data ∨
      (sinkWriteAll data s).2.received = s.received := by
  rcases s with ⟨recv, plan⟩
  match plan with
  | [] => simp [sinkWriteAll]
  | none :: rest => simp [sinkWriteAll]
  | some e' :: rest => simp [sinkWriteAll]

theorem sinkWriteAll_ok_received {ε : Type} {data : List Char} {s s' : SinkState ε}
    (h : sinkWriteAll data s = (Except.ok (), s')) :
    s'.received = s.received ++ data := by
  rcases s with ⟨recv, plan⟩
  match plan with
  | [] => simp [sinkWriteAll] at h; simp [← h]
  | none :: rest => simp [sinkWriteAll] at h; simp [← h]
  | some e' :: rest => simp [sinkWriteAll] at h

theorem sinkWriteMany_received {ε : Type} (ds : List (List Char)) (s : SinkState ε) :
    ∃ t, (sinkWriteMany ds s).2.received = s.received ++ t ∧ t <+: ds.flatten := by
  induction ds generalizing s with
  | nil => exact ⟨[], by simp [sinkWriteMany], by simp⟩
  | cons d ds ih =>
    rw [sinkWriteMany]
    rcases hw : sinkWriteAll d s with ⟨res, s1⟩
    match res with
    | Except.error e' =>
      rcases sinkWriteAll_received d s with h | h <;> rw [hw] at h
      · exact ⟨d, by simpa using h, by simp [List.flatten]⟩
      · exact ⟨[], by simpa using h, by simp⟩
    | Except.ok _ =>
      have h1 : s1.received = s.received ++ d := sinkWriteAll_ok_received hw
      rcases ih (s := s1) with ⟨t, ht, hpre⟩
      refine ⟨d ++ t, ?_, ?_⟩
      · simp [ht, h1]
      · rcases hpre with ⟨u, hu⟩
        exact ⟨u, by simp [List.flatten, ← hu]⟩

theorem sinkWriteMany_ok_received {ε : Type} {ds : List (List Char)}
    {s s' : SinkState ε} (h : sinkWriteMany ds s = (Except.ok (), s')) :
    s'.received = s.received ++ ds.flatten := by
  induction ds generalizing s with
  | nil => simp [sinkWriteMany] at h; simp [← h]
  | cons d ds ih =>
    rw [sinkWriteMany] at h
    rcases hw : sinkWriteAll d s with ⟨res, s1⟩
    rw [hw] at h
    match res with
    | Except.error e' => simp at h
    | Except.ok _ =>
      have h1 : s1.received = s.received ++ d := sinkWriteAll_ok_received hw
      have := ih h
      simp [this, h1, List.flatten]

theorem sinkFlush_received {ε : Type} (s : SinkState ε) :
    (sinkFlush s).2.received = s.received := by
  rcases s with ⟨recv, plan⟩
  match plan with
  | [] => simp [sinkFlush]
  | none :: rest => simp [sinkFlush]
  | some e' :: rest => simp [sinkFlush]

theorem sinkFlush_error_mem {ε : Type} {s s' : SinkState ε} {e : ε}
    (h : sinkFlush s = (Except.error e, s')) : some e ∈ s.plan := by
  rcases s with ⟨recv, plan⟩
  match plan with
  | [] => simp [sinkFlush] at h
  | none :: rest => simp [sinkFlush] at h
  | some e' :: rest => simp [sinkFlush] at h; simp [h.1]

theorem sinkFlush_nilPlan {ε : Type} (recv : List Char) :
    sinkFlush (ε := ε) ⟨recv, []⟩ = (Except.ok (), ⟨recv, []⟩) := rfl

/-! ### Loop-level lemmas -/

theorem writeLoop_nilPlan {ε : Type} (pfx : List Char) (endsNL : Bool)
    (lns : List (List Char)) (rem : Option (List Char)) (recv : List Char) :
    writeLoop (ε := ε) pfx endsNL lns rem ⟨recv, []⟩ =
      (Except.ok (), loopRemainder endsNL lns rem,
        ⟨recv ++ emitLines pfx (completedLines endsNL lns), []⟩) := by
  induction lns generalizing recv rem with
  | nil => simp [writeLoop, loopRemainder, completedLines, emitLines]
  | cons l rest ih =>
    cases endsNL with
    | true =>
      rw [writeLoop]
      simp only [Bool.not_true, Bool.and_false, Bool.false_eq_true, if_false,
        sinkWriteMany_nilPlan]
      rw [ih]
      simp [loopRemainder, completedLines, emitLines]
    | false =>
      cases rest with
      | nil =>
        simp [writeLoop, loopRemainder, completedLines, emitLines]
      | cons l2 rest2 =>
        rw [writeLoop]
        simp only [List.isEmpty_cons, Bool.false_and, Bool.false_eq_true, if_false,
          sinkWriteMany_nilPlan]
        rw [ih]
        simp [loopRemainder, completedLines, emitLines, List.getLast?_cons_cons,
          List.dropLast_cons₂]

theorem writeLoop_error_mem {ε : Type} {pfx : List Char} {endsNL : Bool}
    {lns : List (List Char)} {rem : Option (List Char)} {s : SinkState ε} {e : ε}
    (h : (writeLoop pfx endsNL lns rem s).1 = Except.error e) : some e ∈ s.plan := by
  induction lns generalizing s rem with
  | nil => simp [writeLoop] at h
  | cons l rest ih =>
    rw [writeLoop] at h
    by_cases hc : (rest.isEmpty && !endsNL) = true
    · rw [if_pos hc] at h; simp at h
    · rw [if_neg hc] at h
      rcases hw : sinkWriteMany (lineChunks pfx l) s with ⟨res, s1⟩
      rw [hw] at h
      match res with
      | Except.error e' =>
        simp at h
        subst h
        exact sinkWriteMany_error_mem hw
      | Except.ok _ =>
        have := ih h
        have hm : some e ∈ (sinkWriteMany (lineChunks pfx l) s).2.plan := by
          rw [hw]; exact this
        exact sinkWriteMany_plan_mono hm

theorem writeLoop_remainder {ε : Type} (pfx : List Char) (endsNL : Bool)
    (lns : List (List Char)) (q : Option (List Char)) (s : SinkState ε) :
    (writeLoop pfx endsNL lns q s).2.1 = q ∨
      ∃ l ∈ lns, (writeLoop pfx endsNL lns q s).2.1 = some l := by
  induction lns generalizing s q with
  | nil => left; simp [writeLoop]
  | cons l rest ih =>
    rw [writeLoop]
    by_cases hc : (rest.isEmpty && !endsNL) = true
    · rw [if_pos hc]; right; exact ⟨l, by simp, rfl⟩
    · rw [if_neg hc]
      rcases hw : sinkWriteMany (lineChunks pfx l) s with ⟨res, s1⟩
      match res with
      | Except.error e' => left; rfl
      | Except.ok _ =>
        rcases ih (s := s1) (q := q) with h | ⟨l', hl', h⟩
        · left; exact h
        · right; exact ⟨l', by simp [hl'], h⟩

theorem writeLoop_received_prefix {ε : Type} (pfx : List Char) (endsNL : Bool)
    (lns : List (List Char)) (q : Option (List Char)) (s : SinkState ε) :
    ∃ t, (writeLoop pfx endsNL lns q s).2.2.received = s.received ++ t ∧
      t <+: emitLines pfx (completedLines endsNL lns) := by
  induction lns generalizing s q with
  | nil => exact ⟨[], by simp [writeLoop], List.nil_prefix⟩
  | cons l rest ih =>
    rw [writeLoop]
    by_cases hc : (rest.isEmpty && !endsNL) = true
    · rw [if_pos hc]
      have : rest = [] := by
        rcases rest with _ | ⟨a, b⟩
        · rfl
        · simp at hc
      subst this
      have he : endsNL = false := by
        rcases endsNL with _ | _
        · rfl
        · simp at hc
      subst he
      exact ⟨[], by simp, by simp [completedLines, emitLines]⟩
    · rw [if_neg hc]
      rcases hw : sinkWriteMany (lineChunks pfx l) s with ⟨res, s1⟩
      have hcompleted : emitLines pfx (completedLines endsNL (l :: rest)) =
          (lineChunks pfx l).flatten ++ emitLines pfx (completedLines endsNL rest) := by
        cases endsNL with
        | true => simp [completedLines, emitLines]
        | false =>
          rcases rest with _ | ⟨l2, rest2⟩
          · simp at hc
          · simp [completedLines, emitLines, List.dropLast_cons₂]
      match res with
      | Except.error e' =>
        rcases sinkWriteMany_received (lineChunks pfx l) s with ⟨t, ht, hpre⟩
        rw [hw] at ht
        refine ⟨t, by simpa using ht, ?_⟩
        rw [hcompleted]
        exact hpre.trans (List.prefix_append _ _)
      | Except.ok _ =>
        have h1 : s1.received = s.received ++ (lineChunks pfx l).flatten :=
          sinkWriteMany_ok_received hw
        rcases ih (s := s1) (q := q) with ⟨t, ht, hpre⟩
        refine ⟨(lineChunks pfx l).flatten ++ t, ?_, ?_⟩
        · simp [ht, h1]
        · rw [hcompleted]
          rcases hpre with ⟨u, hu⟩
          exact ⟨u, by simp [← hu]⟩

/-! ### Operation-level lemmas -/

theorem PrefixWriter.write_eq {ε : Type} (w : PrefixWriter) (buf : List Nat)
    (s : SinkState ε) :
    w.write buf s =
      ((match (writeLoop w.pfx (endsWithNL (effInput w buf))
          (strLines (effInput w buf)) w.remainder s).1 with
        | Except.ok _ => Except.ok buf.length
        | Except.error e => Except.error e),
       ⟨w.pfx, (writeLoop w.pfx (endsWithNL (effInput w buf))
          (strLines (effInput w buf)) w.remainder s).2.1⟩,
       (writeLoop w.pfx (endsWithNL (effInput w buf))
          (strLines (effInput w buf)) w.remainder s).2.2) := by
  unfold PrefixWriter.write
  rcases h : writeLoop w.pfx (endsWithNL (effInput w buf))
      (strLines (effInput w buf)) w.remainder s with ⟨res, rem, s1⟩
  simp only [h]
  cases res <;> simp

theorem PrefixWriter.write_nilPlan {ε : Type} (w : PrefixWriter) (buf : List Nat)
    (recv : List Char) :
    w.write (ε := ε) buf ⟨recv, []⟩ =
      (Except.ok buf.length,
       ⟨w.pfx, loopRemainder (endsWithNL (effInput w buf))
          (strLines (effInput w buf)) w.remainder⟩,
       ⟨recv ++ emitLines w.pfx (completedLines (endsWithNL (effInput w buf))
          (strLines (effInput w buf))), []⟩) := by
  rw [PrefixWriter.write_eq, writeLoop_nilPlan]

theorem PrefixWriter.write_error_mem {ε : Type} {w : PrefixWriter} {buf : List Nat}
    {s : SinkState ε} {e : ε} (h : (w.write buf s).1 = Except.error e) :
    some e ∈ s.plan := by
  rw [PrefixWriter.write_eq] at h
  rcases hw : (writeLoop w.pfx (endsWithNL (effInput w buf))
      (strLines (effInput w buf)) w.remainder s).1 with e' | u
  · rw [hw] at h
    simp at h
    subst h
    exact writeLoop_error_mem hw
  · rw [hw] at h
    simp at h

theorem PrefixWriter.write_ok_length {ε : Type} {w : PrefixWriter} {buf : List Nat}
    {s : SinkState ε} {n : Nat} (h : (w.write buf s).1 = Except.ok n) :
    n = buf.length := by
  rw [PrefixWriter.write_eq] at h
  rcases hw : (writeLoop w.pfx (endsWithNL (effInput w buf))
      (strLines (effInput w buf)) w.remainder s).1 with e' | u
  · rw [hw] at h; simp at h
  · rw [hw] at h; simp at h; omega

theorem PrefixWriter.write_remainder_cases {ε : Type} (w : PrefixWriter)
    (buf : List Nat) (s : SinkState ε) :
    (w.write buf s).2.1.remainder = w.remainder ∨
      ∃ l ∈ strLines (effInput w buf), (w.write buf s).2.1.remainder = some l := by
  rw [PrefixWriter.write_eq]
  simpa using writeLoop_remainder w.pfx (endsWithNL (effInput w buf))
    (strLines (effInput w buf)) w.remainder s

theorem PrefixWriter.write_received_prefix {ε : Type} (w : PrefixWriter)
    (buf : List Nat) (s : SinkState ε) :
    ∃ t, (w.write buf s).2.2.received = s.received ++ t ∧
      t <+: emitLines w.pfx (completedLines (endsWithNL (effInput w buf))
        (strLines (effInput w buf))) := by
  rw [PrefixWriter.write_eq]
  simpa using writeLoop_received_prefix w.pfx (endsWithNL (effInput w buf))
    (strLines (effInput w buf)) w.remainder s

theorem PrefixWriter.flush_nilPlan {ε : Type} (w : PrefixWriter) (recv : List Char) :
    w.flush (ε := ε) ⟨recv, []⟩ = (Except.ok (), w, ⟨recv ++ flushEmit w, []⟩) := by
  unfold PrefixWriter.flush
  match hr : w.remainder with
  | none => simp [sinkFlush_nilPlan, flushEmit, hr]
  | some r =>
    by_cases he : r.isEmpty
    · simp [he, sinkFlush_nilPlan, flushEmit, hr]
    · simp [he, sinkWriteMany_nilPlan, sinkFlush_nilPlan, flushEmit, hr]

theorem PrefixWriter.flush_eq_none {ε : Type} {w : PrefixWriter} (s : SinkState ε)
    (hr : w.remainder = none) :
    w.flush s = ((sinkFlush s).1, w, (sinkFlush s).2) := by
  unfold PrefixWriter.flush
  rw [hr]

theorem PrefixWriter.flush_eq_some_empty {ε : Type} {w : PrefixWriter} {r : List Char}
    (s : SinkState ε) (hr : w.remainder = some r) (he : r.isEmpty) :
    w.flush s = ((sinkFlush s).1, w, (sinkFlush s).2) := by
  unfold PrefixWriter.flush
  rw [hr]
  simp [he]

theorem PrefixWriter.flush_eq_some_ne {ε : Type} {w : PrefixWriter} {r : List Char}
    (s : SinkState ε) (hr : w.remainder = some r) (he : ¬r.isEmpty) :
    w.flush s =
      (match sinkWriteMany [w.pfx, r] s with
       | (Except.error e, s1) => (Except.error e, w, s1)
       | (Except.ok _, s1) => ((sinkFlush s1).1, w, (sinkFlush s1).2)) := by
  unfold PrefixWriter.flush
  rw [hr]
  rcases hw : sinkWriteMany [w.pfx, r] s with ⟨res, s1⟩
  match res with
  | Except.error e => simp [he, hw]
  | Except.ok _ => simp [he, hw]

theorem PrefixWriter.flush_error_mem {ε : Type} {w : PrefixWriter}
    {s : SinkState ε} {e : ε} (h : (w.flush s).1 = Except.error e) :
    some e ∈ s.plan := by
  match hr : w.remainder with
  | none =>
    rw [PrefixWriter.flush_eq_none s hr] at h
    rcases hf : sinkFlush s with ⟨res, s1⟩
    rw [hf] at h
    simp at h
    subst h
    exact sinkFlush_error_mem hf
  | some r =>
    by_cases he : r.isEmpty
    · rw [PrefixWriter.flush_eq_some_empty s hr he] at h
      rcases hf : sinkFlush s with ⟨res, s1⟩
      rw [hf] at h
      simp at h
      subst h
      exact sinkFlush_error_mem hf
    · rw [PrefixWriter.flush_eq_some_ne s hr he] at h
      rcases hw : sinkWriteMany [w.pfx, r] s with ⟨res, s1⟩
      rw [hw] at h
      match res with
      | Except.error e' =>
        simp at h
        subst h
        exact sinkWriteMany_error_mem hw
      | Except.ok _ =>
        simp at h
        rcases hf : sinkFlush s1 with ⟨res2, s2⟩
        rw [hf] at h
        simp at h
        subst h
        have h1 : some e ∈ s1.plan := sinkFlush_error_mem hf
        have h2 : some e ∈ (sinkWriteMany [w.pfx, r] s).2.plan := by rw [hw]; exact h1
        exact sinkWriteMany_plan_mono h2

theorem PrefixWriter.flush_received_prefix {ε : Type} (w : PrefixWriter)
    (s : SinkState ε) :
    ∃ t, (w.flush s).2.2.received = s.received ++ t ∧ t <+: flushEmit w := by
  match hr : w.remainder with
  | none =>
    rw [PrefixWriter.flush_eq_none s hr]
    exact ⟨[], by simp [sinkFlush_received], List.nil_prefix⟩
  | some r =>
    by_cases he : r.isEmpty
    · rw [PrefixWriter.flush_eq_some_empty s hr he]
      exact ⟨[], by simp [sinkFlush_received], List.nil_prefix⟩
    · rw [PrefixWriter.flush_eq_some_ne s hr he]
      rcases hw : sinkWriteMany [w.pfx, r] s with ⟨res, s1⟩
      rcases sinkWriteMany_received [w.pfx, r] s with ⟨t, ht, hpre⟩
      rw [hw] at ht
      have hj : ([w.pfx, r] : List (List Char)).flatten = w.pfx ++ r := by
        simp [List.flatten]
      have hfl : flushEmit w = w.pfx ++ r := by
        simp [flushEmit, hr, he]
      match res with
      | Except.error e' =>
        exact ⟨t, by simpa using ht, by rw [hfl, ← hj]; exact hpre⟩
      | Except.ok _ =>
        refine ⟨t, ?_, by rw [hfl, ← hj]; exact hpre⟩
        simp [sinkFlush_received]
        simpa using ht

/-! ### Characterisation of the line splitting -/

/-- Strip one trailing carriage return, if present. -/
def stripTrailingCR (a : List Char) : List Char :=
  match a.getLast? with
  | some c => if c = '\r' then a.dropLast else a
  | none => a

/-- Spec-side line splitting, following the amended wording of the spec:
scan the text left to right accumulating the current line; at each newline,
emit the current line with one carriage return immediately preceding the
newline discarded; at the end of the input, emit a non-empty current line
unchanged and drop an empty one (so a trailing terminator produces no
trailing empty line).  The accumulator holds the current line reversed. -/
def specAmAux (cur : List Char) : List Char → List (List Char)
  | [] => if cur = [] then [] else [cur.reverse]
  | c :: rest =>
    if c = '\n' then
      (match cur with
       | [] => []
       | c0 :: curTail =>
         if c0 = '\r' then curTail.reverse else (c0 :: curTail).reverse) ::
        specAmAux [] rest
    else specAmAux (c :: cur) rest

theorem specAmAux_nil (cur : List Char) :
    specAmAux cur [] = if cur = [] then [] else [cur.reverse] := rfl

theorem specAmAux_cons (cur : List Char) (c : Char) (rest : List Char) :
    specAmAux cur (c :: rest) =
      if c = '\n' then
        (match cur with
         | [] => []
         | c0 :: curTail =>
           if c0 = '\r' then curTail.reverse else (c0 :: curTail).reverse) ::
          specAmAux [] rest
      else specAmAux (c :: cur) rest := rfl

/-- Spec-side line splitting of a whole text. -/
def specLinesAm (s : List Char) : List (List Char) := specAmAux [] s

theorem getLast?_mem_of_eq {α : Type} {l : List α} {a : α}
    (h : l.getLast? = some a) : a ∈ l := by
  rcases List.mem_getLast?_eq_getLast (by rw [h]; rfl) with ⟨hne, heq⟩
  rw [heq]
  exact List.getLast_mem hne

theorem splitInclusiveNL_no_nl {s : List Char} (h : '\n' ∉ s) :
    splitInclusiveNL s = if s = [] then [] else [s] := by
  induction s with
  | nil => simp [splitInclusiveNL]
  | cons c rest ih =>
    have hc : c ≠ '\n' := fun hc => h (hc ▸ List.mem_cons_self c rest)
    have hrest : '\n' ∉ rest := fun hm => h (List.mem_cons_of_mem c hm)
    rw [splitInclusiveNL, if_neg hc, ih hrest]
    rcases eq_or_ne rest [] with hr | hr
    · subst hr; simp
    · simp [hr]

theorem linesMap_no_nl {s : List Char} (h : '\n' ∉ s) : linesMap s = s := by
  unfold linesMap
  match hl : s.getLast? with
  | none => rfl
  | some c =>
    have hc : c ≠ '\n' := fun hc => h (hc ▸ getLast?_mem_of_eq hl)
    simp [hc]

theorem strLines_no_nl {s : List Char} (h : '\n' ∉ s) :
    strLines s = if s = [] then [] else [s] := by
  rw [strLines, splitInclusiveNL_no_nl h]
  rcases eq_or_ne s [] with hs | hs
  · subst hs; simp
  · simp [hs, linesMap_no_nl h]

theorem splitInclusiveNL_append_nl {a : List Char} (r : List Char) (h : '\n' ∉ a) :
    splitInclusiveNL (a ++ '\n' :: r) = (a ++ ['\n']) :: splitInclusiveNL r := by
  induction a with
  | nil => simp [splitInclusiveNL]
  | cons c a' ih =>
    have hc : c ≠ '\n' := fun hc => h (hc ▸ List.mem_cons_self c a')
    have ha' : '\n' ∉ a' := fun hm => h (List.mem_cons_of_mem c hm)
    rw [List.cons_append, splitInclusiveNL, if_neg hc, ih ha']
    simp

theorem linesMap_append_nl (a : List Char) :
    linesMap (a ++ ['\n']) = stripTrailingCR a := by
  unfold linesMap stripTrailingCR
  rw [List.getLast?_concat, List.dropLast_concat]
  match hg : a.getLast? with
  | none => simp
  | some c2 => simp

theorem stripTrailingCR_reverse_cons (c0 : Char) (tail : List Char) :
    stripTrailingCR ((c0 :: tail).reverse) =
      if c0 = '\r' then tail.reverse else (c0 :: tail).reverse := by
  unfold stripTrailingCR
  rw [List.reverse_cons, List.getLast?_concat]
  by_cases h0 : c0 = '\r'
  · simp [h0, List.dropLast_concat]
  · simp [h0]

theorem specAmAux_eq_strLines (t : List Char) :
    ∀ cur : List Char, '\n' ∉ cur →
      specAmAux cur t = strLines (cur.reverse ++ t) := by
  induction t with
  | nil =>
    intro cur hcur
    rw [specAmAux_nil]
    have hrev : '\n' ∉ cur.reverse := fun hm => hcur (List.mem_reverse.mp hm)
    rw [List.append_nil, strLines_no_nl hrev]
    rcases eq_or_ne cur [] with hc | hc
    · subst hc; simp
    · simp [hc]
  | cons c rest ih =>
    intro cur hcur
    rw [specAmAux_cons]
    by_cases hc : c = '\n'
    · subst hc
      rw [if_pos rfl, ih [] (by simp)]
      simp only [List.reverse_nil, List.nil_append]
      have hrev : '\n' ∉ cur.reverse := fun hm => hcur (List.mem_reverse.mp hm)
      have hR : strLines (cur.reverse ++ '\n' :: rest) =
          linesMap (cur.reverse ++ ['\n']) :: strLines rest := by
        rw [strLines, splitInclusiveNL_append_nl rest hrev]
        rfl
      rw [hR, linesMap_append_nl]
      congr 1
      match cur with
      | [] => rfl
      | c0 :: tail => rw [stripTrailingCR_reverse_cons]
    · rw [if_neg hc, ih (c :: cur) (by
        intro hm
        rcases List.mem_cons.mp hm with h1 | h1
        · exact hc h1.symm
        · exact hcur h1)]
      congr 1
      simp

theorem strLines_eq_specLinesAm (s : List Char) : strLines s = specLinesAm s := by
  rw [specLinesAm, specAmAux_eq_strLines s [] (by simp)]
  simp

theorem specAmAux_no_nl (t : List Char) :
    ∀ cur l : List Char, '\n' ∉ cur → l ∈ specAmAux cur t → '\n' ∉ l := by
  induction t with
  | nil =>
    intro cur l hcur hl
    rw [specAmAux_nil] at hl
    rcases eq_or_ne cur [] with hc | hc
    · simp [hc] at hl
    · rw [if_neg hc] at hl
      simp at hl
      subst hl
      exact fun hm => hcur (List.mem_reverse.mp hm)
  | cons c rest ih =>
    intro cur l hcur hl
    rw [specAmAux_cons] at hl
    by_cases hc : c = '\n'
    · subst hc
      rw [if_pos rfl] at hl
      rcases List.mem_cons.mp hl with h1 | h1
      · subst h1
        match cur with
        | [] => simp
        | c0 :: curTail =>
          show '\n' ∉ (if c0 = '\r' then curTail.reverse else (c0 :: curTail).reverse)
          by_cases h0 : c0 = '\r'
          · rw [if_pos h0]
            intro hm
            exact hcur (List.mem_cons_of_mem _ (List.mem_reverse.mp hm))
          · rw [if_neg h0]
            intro hm
            exact hcur (List.mem_reverse.mp hm)
      · exact ih [] l (by simp) h1
    · rw [if_neg hc] at hl
      refine ih (c :: cur) l ?_ hl
      intro hm
      rcases List.mem_cons.mp hm with h1 | h1
      · exact hc h1.symm
      · exact hcur h1

theorem strLines_mem_no_nl {s l : List Char} (h : l ∈ strLines s) : '\n' ∉ l := by
  rw [strLines_eq_specLinesAm, specLinesAm] at h
  exact specAmAux_no_nl s [] l (by simp) h

/-! ### Further helper lemmas -/

theorem utf8Lossy_cons_lt {b : Nat} (rest : List Nat) (h : b < 0x80) :
    utf8Lossy (b :: rest) = Char.ofNat b :: utf8Lossy rest := by
  match rest with
  | [] => simp [utf8Lossy, h]
  | [b2] => simp [utf8Lossy, h]
  | [b2, b3] => simp [utf8Lossy, h]
  | b2 :: b3 :: b4 :: t4 => simp [utf8Lossy, h]

theorem utf8Lossy_ascii (s : List Char) (h : ∀ c ∈ s, c.toNat < 0x80) :
    utf8Lossy (bytesOfAscii s) = s := by
  induction s with
  | nil => simp [bytesOfAscii, utf8Lossy]
  | cons c rest ih =>
    rw [bytesOfAscii, List.map_cons,
      utf8Lossy_cons_lt _ (h c (List.mem_cons_self c rest)), Char.ofNat_toNat]
    rw [← bytesOfAscii, ih (fun c2 hc2 => h c2 (List.mem_cons_of_mem c hc2))]

theorem emitLines_foldr (pfx : List Char) (lns : List (List Char)) :
    emitLines pfx lns =
      lns.foldr (fun l acc => (if l = [] then [] else pfx) ++ l ++ '\n' :: acc) [] := by
  induction lns with
  | nil => rfl
  | cons l ls ih =>
    rw [emitLines, ih, List.foldr_cons]
    match l with
    | [] => simp [lineChunks]
    | a :: l2 => simp [lineChunks]

theorem strLines_replicate_nl (n : Nat) :
    strLines (List.replicate n '\n') = List.replicate n [] := by
  induction n with
  | zero => rfl
  | succ n ih =>
    rw [List.replicate_succ, strLines, splitInclusiveNL, if_pos rfl,
      List.map_cons, ← strLines, ih]
    rfl

theorem emitLines_replicate_empty (pfx : List Char) (n : Nat) :
    emitLines pfx (List.replicate n []) = List.replicate n '\n' := by
  induction n with
  | zero => rfl
  | succ n ih =>
    rw [List.replicate_succ, emitLines, ih, List.replicate_succ]
    rfl

theorem PrefixWriter.flush_state_eq {ε : Type} (w : PrefixWriter) (s : SinkState ε) :
    (w.flush s).2.1 = w := by
  match hr : w.remainder with
  | none => rw [PrefixWriter.flush_eq_none s hr]
  | some r =>
    by_cases he : r.isEmpty
    · rw [PrefixWriter.flush_eq_some_empty s hr he]
    · rw [PrefixWriter.flush_eq_some_ne s hr he]
      rcases hw : sinkWriteMany [w.pfx, r] s with ⟨res, s1⟩
      cases res <;> simp

deriving instance DecidableEq for Except

/-! ### Concrete scenarios used by the claim theorems -/

/-- A fresh adapter with text "p: ", as in the crate's tests. -/
def demoW : PrefixWriter := PrefixWriter.new ("p: ".toList)

/-- An empty all-accepting sink. -/
def emptySinkU : SinkState Unit := ⟨[], []⟩

/-- Write the single chunk "a" on the fresh adapter (stores remainder "a"). -/
def stepA := demoW.write (bytesOfAscii ("a".toList)) emptySinkU

/-- Then write the chunk a lone newline, completing the line "a". -/
def stepAB := stepA.2.1.write (bytesOfAscii ("\n".toList)) stepA.2.2

/-- Write "a" and the newline in one call on the fresh adapter. -/
def stepANl := demoW.write (bytesOfAscii ("a\n".toList)) emptySinkU

/-- One flush after the incomplete write of "a". -/
def flushOnce := stepA.2.1.flush stepA.2.2

/-- A second flush with no intervening write. -/
def flushTwice := flushOnce.2.1.flush flushOnce.2.2

/-- Write "a", a carriage return and a newline in one call on the fresh
adapter. -/
def stepACRNl := demoW.write (bytesOfAscii ("a\r\n".toList)) emptySinkU

/-! ### The claims -/

/-- C1: the chunking-invariance claim fails on the code.  Writing the
input "a\n" in one call and flushing puts "p: a\n" at the sink, but
writing the same input split as "a" then "\n" and flushing puts
"p: a\np: a" there: `write` never resets the remainder stored by the
first chunk, so `flush` re-emits the already completed line. -/
theorem C1_chunking_invariance_fails :
    (stepANl.2.1.flush stepANl.2.2).2.2.received = "p: a\n".toList ∧
    (stepAB.2.1.flush stepAB.2.2).2.2.received = "p: a\np: a".toList ∧
    (stepANl.2.1.flush stepANl.2.2).2.2.received ≠
      (stepAB.2.1.flush stepAB.2.2).2.2.received := by decide

/-- C2: after writing a lone newline on an adapter whose remainder is
"a", the effective input "a\n" ends with a terminator and the call
succeeds, yet the remainder is still `some "a"` instead of absent: the
loop in `write` assigns the remainder only in its incomplete branch and
never clears it. -/
theorem C2_remainder_not_cleared :
    stepA.2.1.remainder = some ("a".toList) ∧
    endsWithNL (effInput stepA.2.1 (bytesOfAscii ("\n".toList))) = true ∧
    stepAB.1 = Except.ok 1 ∧
    stepAB.2.1.remainder = some ("a".toList) := by decide

/-- C3 counterexample: with pending remainder "a", one flush forwards
"p: a" to the sink but a second flush with no intervening write forwards
it again, so the second flush does contribute additional bytes. -/
theorem C3_flush_twice_counterexample :
    flushOnce.2.2.received = "p: a".toList ∧
    flushTwice.2.2.received = "p: ap: a".toList ∧
    flushOnce.2.2.received ≠ flushTwice.2.2.received := by decide

/-- C3 amended: `flush` leaves the remainder in place, so with all sink
operations succeeding two successive flushes forward the remainder-derived
bytes twice whenever a non-empty remainder is pending; only when the
remainder is absent or empty does the second flush contribute no bytes. -/
theorem C3_flush_twice_amended :
    (∀ (w : PrefixWriter) (recv : List Char),
      w.remainder = none ∨ w.remainder = some [] →
      (w.flush (⟨recv, []⟩ : SinkState Unit)).2.2.received = recv ∧
      ((w.flush (⟨recv, []⟩ : SinkState Unit)).2.1.flush
        (w.flush (⟨recv, []⟩ : SinkState Unit)).2.2).2.2.received = recv) ∧
    (∀ (w : PrefixWriter) (r recv : List Char),
      w.remainder = some r → r ≠ [] →
      (w.flush (⟨recv, []⟩ : SinkState Unit)).2.2.received = recv ++ w.pfx ++ r ∧
      ((w.flush (⟨recv, []⟩ : SinkState Unit)).2.1.flush
        (w.flush (⟨recv, []⟩ : SinkState Unit)).2.2).2.2.received =
        recv ++ w.pfx ++ r ++ w.pfx ++ r) := by
  constructor
  · intro w recv h
    have hfe : flushEmit w = [] := by
      rcases h with h | h <;> simp [flushEmit, h]
    rw [PrefixWriter.flush_nilPlan]
    simp [hfe, PrefixWriter.flush_nilPlan]
  · intro w r recv hr hne
    have hfe : flushEmit w = w.pfx ++ r := by
      simp [flushEmit, hr, hne]
    rw [PrefixWriter.flush_nilPlan]
    simp [hfe, PrefixWriter.flush_nilPlan, List.append_assoc]

/-- C3 amended, witnessed at two concrete states: a fresh adapter (absent
remainder) and an adapter with pending remainder "a". -/
theorem C3_flush_twice_amended_witness :
    ((PrefixWriter.new ("p: ".toList)).remainder = none ∨
      (PrefixWriter.new ("p: ".toList)).remainder = some []) ∧
    ((PrefixWriter.new ("p: ".toList)).flush (⟨[], []⟩ : SinkState Unit)).2.2.received = [] ∧
    (((PrefixWriter.new ("p: ".toList)).flush (⟨[], []⟩ : SinkState Unit)).2.1.flush
      ((PrefixWriter.new ("p: ".toList)).flush (⟨[], []⟩ : SinkState Unit)).2.2).2.2.received = [] ∧
    (⟨"p: ".toList, some ("a".toList)⟩ : PrefixWriter).remainder = some ("a".toList) ∧
    "a".toList ≠ ([] : List Char) ∧
    ((⟨"p: ".toList, some ("a".toList)⟩ : PrefixWriter).flush
      (⟨[], []⟩ : SinkState Unit)).2.2.received =
      [] ++ "p: ".toList ++ "a".toList ∧
    (((⟨"p: ".toList, some ("a".toList)⟩ : PrefixWriter).flush
      (⟨[], []⟩ : SinkState Unit)).2.1.flush
      ((⟨"p: ".toList, some ("a".toList)⟩ : PrefixWriter).flush
        (⟨[], []⟩ : SinkState Unit)).2.2).2.2.received =
      [] ++ "p: ".toList ++ "a".toList ++ "p: ".toList ++ "a".toList :=
  ⟨Or.inl rfl,
   (C3_flush_twice_amended.1 (PrefixWriter.new ("p: ".toList)) [] (Or.inl rfl)).1,
   (C3_flush_twice_amended.1 (PrefixWriter.new ("p: ".toList)) [] (Or.inl rfl)).2,
   rfl,
   by decide,
   (C3_flush_twice_amended.2 (⟨"p: ".toList, some ("a".toList)⟩ : PrefixWriter)
     ("a".toList) [] rfl (by decide)).1,
   (C3_flush_twice_amended.2 (⟨"p: ".toList, some ("a".toList)⟩ : PrefixWriter)
     ("a".toList) [] rfl (by decide)).2⟩

/-- C4: flush never changes the adapter's state — the configured text and
the pending remainder (presence and content) are exactly what they were
before the call, for every state and every sink behaviour, failing or
not. -/
theorem C4_flush_preserves_state :
    ∀ (ε : Type) (w : PrefixWriter) (s : SinkState ε), (w.flush s).2.1 = w :=
  fun _ w s => PrefixWriter.flush_state_eq w s

/-- C5 counterexample: for the input bytes of "a\r\n" the carriage return
is not forwarded — the sink receives exactly "p: a\n" — because the line
splitting treats the carriage return before a newline as part of the
terminator and discards it. -/
theorem C5_carriage_return_dropped :
    stepACRNl.1 = Except.ok 3 ∧
    stepACRNl.2.2.received = "p: a\n".toList ∧
    '\r' ∉ stepACRNl.2.2.received := by decide

/-- C5 amended: the effective input is split at each newline, discarding
the newline and one carriage return immediately preceding it; a trailing
terminator produces no trailing empty line; all other characters of a
completed line reach the sink unchanged through the per-line emission. -/
theorem C5_line_splitting_amended :
    (∀ s : List Char, strLines s = specLinesAm s) ∧
    (∀ (w : PrefixWriter) (buf : List Nat) (recv : List Char),
      (w.write (ε := Unit) buf ⟨recv, []⟩).2.2.received =
        recv ++ emitLines w.pfx (completedLines (endsWithNL (effInput w buf))
          (specLinesAm (effInput w buf)))) := by
  refine ⟨strLines_eq_specLinesAm, ?_⟩
  intro w buf recv
  rw [PrefixWriter.write_nilPlan, strLines_eq_specLinesAm]

theorem getLast?_replicate_succ {α : Type} (a : α) (n : Nat) :
    (List.replicate (n + 1) a).getLast? = some a := by
  induction n with
  | zero => rfl
  | succ n ih =>
    rw [List.replicate_succ, List.replicate_succ, List.getLast?_cons_cons,
      ← List.replicate_succ]
    exact ih

/-- C6: for each completed line, write forwards the configured text (only
when the line is non-empty), then the line, then one newline byte; in
particular an input consisting solely of newline bytes is reproduced
unchanged, so no empty line is ever given the text. -/
theorem C6_completed_line_emission :
    (∀ (w : PrefixWriter) (buf : List Nat) (recv : List Char),
      (w.write (ε := Unit) buf ⟨recv, []⟩).2.2.received =
        recv ++ (completedLines (endsWithNL (effInput w buf))
          (strLines (effInput w buf))).foldr
            (fun l acc => (if l = [] then [] else w.pfx) ++ l ++ '\n' :: acc) []) ∧
    (∀ (pfx recv : List Char) (n : Nat),
      ((PrefixWriter.new pfx).write (ε := Unit) (List.replicate n 10)
        ⟨recv, []⟩).2.2.received = recv ++ List.replicate n '\n') := by
  constructor
  · intro w buf recv
    rw [PrefixWriter.write_nilPlan, emitLines_foldr]
  · intro pfx recv n
    rw [PrefixWriter.write_nilPlan]
    have hb : utf8Lossy (List.replicate n 10) = List.replicate n '\n' := by
      have hmap : List.replicate n (10 : Nat) = bytesOfAscii (List.replicate n '\n') := by
        have h10 : ('\n').toNat = 10 := by decide
        rw [bytesOfAscii, List.map_replicate, h10]
      rw [hmap, utf8Lossy_ascii]
      intro c hc
      rw [List.eq_of_mem_replicate hc]
      decide
    have heff : effInput (PrefixWriter.new pfx) (List.replicate n 10) =
        List.replicate n '\n' := by
      simp [effInput, PrefixWriter.new, hb]
    rw [heff, strLines_replicate_nl]
    cases n with
    | zero => simp [completedLines, endsWithNL, emitLines]
    | succ n =>
      have hends : endsWithNL (List.replicate (n + 1) '\n') = true := by
        simp [endsWithNL, getLast?_replicate_succ]
      rw [hends, completedLines, if_pos rfl, emitLines_replicate_empty]

/-- C7: write and flush fail exactly when a sink operation fails: with an
all-accepting sink they always succeed (the adapter's own decoding,
splitting, buffering and prefixing are total, for arbitrary byte input);
any error returned is one produced by the sink's plan, propagated
unchanged; and the bytes reaching the sink are always a prefix of the
full-success emission, so a failure aborts the rest of the call. -/
theorem C7_error_propagation :
    (∀ (ε : Type) (w : PrefixWriter) (buf : List Nat) (recv : List Char),
      (w.write (ε := ε) buf ⟨recv, []⟩).1 = Except.ok buf.length) ∧
    (∀ (ε : Type) (w : PrefixWriter) (recv : List Char),
      (w.flush (ε := ε) ⟨recv, []⟩).1 = Except.ok ()) ∧
    (∀ (ε : Type) (w : PrefixWriter) (buf : List Nat) (s : SinkState ε) (e : ε),
      (w.write buf s).1 = Except.error e → some e ∈ s.plan) ∧
    (∀ (ε : Type) (w : PrefixWriter) (s : SinkState ε) (e : ε),
      (w.flush s).1 = Except.error e → some e ∈ s.plan) ∧
    (∀ (ε : Type) (w : PrefixWriter) (buf : List Nat) (s : SinkState ε),
      ∃ t, (w.write buf s).2.2.received = s.received ++ t ∧
        t <+: emitLines w.pfx (completedLines (endsWithNL (effInput w buf))
          (strLines (effInput w buf)))) ∧
    (∀ (ε : Type) (w : PrefixWriter) (s : SinkState ε),
      ∃ t, (w.flush s).2.2.received = s.received ++ t ∧ t <+: flushEmit w) := by
  refine ⟨?_, ?_, ?_, ?_, ?_, ?_⟩
  · intro ε w buf recv
    rw [PrefixWriter.write_nilPlan]
  · intro ε w recv
    rw [PrefixWriter.flush_nilPlan]
  · intro ε w buf s e h
    exact PrefixWriter.write_error_mem h
  · intro ε w s e h
    exact PrefixWriter.flush_error_mem h
  · intro ε w buf s
    exact PrefixWriter.write_received_prefix w buf s
  · intro ε w s
    exact PrefixWriter.flush_received_prefix w s

/-- C7 witnessed at concrete failing sinks: the first sink operation of a
write (and of a flush) fails with a numeric error, which the call returns
unchanged. -/
theorem C7_error_propagation_witness :
    ((PrefixWriter.new ("p".toList)).write (bytesOfAscii ("a\n".toList))
      (⟨[], [some 7]⟩ : SinkState Nat)).1 = Except.error 7 ∧
    some 7 ∈ (⟨[], [some 7]⟩ : SinkState Nat).plan ∧
    ((⟨"p".toList, some ("a".toList)⟩ : PrefixWriter).flush
      (⟨[], [some 9]⟩ : SinkState Nat)).1 = Except.error 9 ∧
    some 9 ∈ (⟨[], [some 9]⟩ : SinkState Nat).plan :=
  ⟨by decide,
   C7_error_propagation.2.2.1 Nat (PrefixWriter.new ("p".toList))
     (bytesOfAscii ("a\n".toList)) ⟨[], [some 7]⟩ 7 (by decide),
   by decide,
   C7_error_propagation.2.2.2.1 Nat (⟨"p".toList, some ("a".toList)⟩ : PrefixWriter)
     ⟨[], [some 9]⟩ 9 (by decide)⟩

/-- C8: on a fresh adapter, writing "first\nsecond" forwards exactly the
configured text and "first\n" to the sink and withholds "second" as the
remainder; a subsequent flush appends the text and "second" with no
terminator. -/
theorem C8_first_second_example (pfx : List Char) :
    ((PrefixWriter.new pfx).write (ε := Unit) (bytesOfAscii ("first\nsecond".toList))
      ⟨[], []⟩).2.2.received = pfx ++ "first\n".toList ∧
    ((PrefixWriter.new pfx).write (ε := Unit) (bytesOfAscii ("first\nsecond".toList))
      ⟨[], []⟩).2.1.remainder = some ("second".toList) ∧
    (((PrefixWriter.new pfx).write (ε := Unit) (bytesOfAscii ("first\nsecond".toList))
      ⟨[], []⟩).2.1.flush
     ((PrefixWriter.new pfx).write (ε := Unit) (bytesOfAscii ("first\nsecond".toList))
      ⟨[], []⟩).2.2).2.2.received =
      pfx ++ "first\n".toList ++ pfx ++ "second".toList := by
  have heff : effInput (PrefixWriter.new pfx) (bytesOfAscii ("first\nsecond".toList)) =
      "first\nsecond".toList := by
    show utf8Lossy (bytesOfAscii ("first\nsecond".toList)) = "first\nsecond".toList
    decide
  have hlines : strLines ("first\nsecond".toList) =
      [['f', 'i', 'r', 's', 't'], ['s', 'e', 'c', 'o', 'n', 'd']] := by decide
  have hends : endsWithNL ("first\nsecond".toList) = false := by decide
  have hfirst : ('f' :: 'i' :: 'r' :: 's' :: 't' :: '\n' :: ([] : List Char)) =
      "first\n".toList := by decide
  have hsecond : (['s', 'e', 'c', 'o', 'n', 'd'] : List Char) = "second".toList := by decide
  refine ⟨?_, ?_, ?_⟩
  · rw [PrefixWriter.write_nilPlan, heff, hlines, hends]
    simp [completedLines, emitLines, lineChunks, PrefixWriter.new, ← hfirst]
  · rw [PrefixWriter.write_nilPlan, heff, hlines, hends]
    simp [loopRemainder, PrefixWriter.new, ← hsecond]
  · rw [PrefixWriter.write_nilPlan, heff, hlines, hends]
    simp [completedLines, loopRemainder, emitLines, lineChunks, PrefixWriter.new,
      PrefixWriter.flush_nilPlan, flushEmit, ← hfirst, ← hsecond, List.append_assoc]

/-- C9: whenever write succeeds — that is, whenever every sink operation
performed during the call succeeded — the returned consumed-byte count is
the full length of the input byte argument, for every input and every
prior adapter state. -/
theorem C9_write_returns_full_length :
    ∀ (ε : Type) (w : PrefixWriter) (buf : List Nat) (s : SinkState ε) (n : Nat),
      (w.write buf s).1 = Except.ok n → n = buf.length :=
  fun _ _ _ _ _ h => PrefixWriter.write_ok_length h

/-- C9 witnessed at a concrete call: writing the two bytes of "a\n"
returns a count of 2. -/
theorem C9_write_returns_full_length_witness :
    ((PrefixWriter.new ("p".toList)).write (ε := Unit) [97, 10] ⟨[], []⟩).1 =
      Except.ok 2 ∧ (2 : Nat) = ([97, 10] : List Nat).length :=
  ⟨by decide,
   C9_write_returns_full_length Unit (PrefixWriter.new ("p".toList)) [97, 10]
     ⟨[], []⟩ 2 (by decide)⟩

/-- C10: the pending remainder never contains a newline: it is absent at
construction; write preserves the property because any new remainder is a
line produced by the splitting, which never contains a newline; flush and
the with-style constructors leave the remainder untouched. -/
theorem C10_remainder_never_has_newline :
    (∀ pfx : List Char, (PrefixWriter.new pfx).remainder = none) ∧
    (∀ (ε : Type) (w : PrefixWriter) (buf : List Nat) (s : SinkState ε) (r : List Char),
      (∀ r0, w.remainder = some r0 → '\n' ∉ r0) →
      (w.write buf s).2.1.remainder = some r → '\n' ∉ r) ∧
    (∀ (ε : Type) (w : PrefixWriter) (s : SinkState ε),
      (w.flush s).2.1.remainder = w.remainder) ∧
    (∀ (w : PrefixWriter) (p : List Char), (w.withPfx p).remainder = w.remainder) ∧
    (∀ w : PrefixWriter, w.withWriter.remainder = w.remainder) := by
  refine ⟨fun pfx => rfl, ?_, ?_, fun w p => rfl, fun w => rfl⟩
  · intro ε w buf s r hinv hr
    rcases PrefixWriter.write_remainder_cases w buf s with h | ⟨l, hl, h⟩
    · rw [h] at hr
      exact hinv r hr
    · rw [h] at hr
      have hlr : l = r := Option.some.inj hr
      rw [← hlr]
      exact strLines_mem_no_nl hl
  · intro ε w s
    rw [PrefixWriter.flush_state_eq]

/-- C10 witnessed at a concrete state: an adapter whose remainder is "a"
receives the byte of "b"; the new remainder "ab" contains no newline. -/
theorem C10_remainder_never_has_newline_witness :
    (∀ r0 : List Char, (⟨['p'], some ['a']⟩ : PrefixWriter).remainder = some r0 →
      '\n' ∉ r0) ∧
    ((⟨['p'], some ['a']⟩ : PrefixWriter).write (ε := Unit) [98]
      ⟨[], []⟩).2.1.remainder = some ['a', 'b'] ∧
    '\n' ∉ (['a', 'b'] : List Char) :=
  ⟨fun r0 h => by simp at h; rw [← h]; decide,
   by decide,
   C10_remainder_never_has_newline.2.1 Unit (⟨['p'], some ['a']⟩ : PrefixWriter)
     [98] ⟨[], []⟩ ['a', 'b']
     (fun r0 h => by simp at h; rw [← h]; decide) (by decide)⟩
